import Mathlib

/-!
# Verification of the enveil detection-and-protection engine

A shallow embedding of the core of the `enveil` repository (Rust) in Lean 4,
together with theorems settling the frozen claims about its specification.

Modelling conventions:
* Rust `String` / `&str` values are `List Char`; string literals are written
  as Lean string literals followed by `.data`.  Byte lengths (`String::len`)
  are computed from `Char.utf8Size`, which agrees with Rust's `char::len_utf8`.
* File contents (`Vec<u8>`) are `List Nat`.
* The file system is an association list from path strings to contents;
  `fs::read`/`fs::write`/`fs::remove_file`/`fs::copy` become pure operations
  on that list.  Fallible OS calls are driven by an `IOEnv` record of
  error-injection flags: a flag set to `true` means the corresponding
  syscall reports an error (the `Err` branch of the Rust code).
* The AES-256-GCM cipher comes from the external `aes_gcm` crate, not from
  this repository; it is abstracted as a function parameter
  `aes : key → nonce → plaintext → ciphertext` whose output stands for the
  ciphertext with the 16-byte authentication tag already appended (the
  `aead` crate's `encrypt` returns exactly that).  Random values (key,
  nonce) are likewise passed in as parameters.
* Rust's Unicode-aware `char::is_alphanumeric` is abstracted as a function
  parameter `isAlnum : Char → Bool` in the redaction functions; theorems
  that need facts about it take them as hypotheses that hold for the real
  Unicode predicate (for example `isAlnum '*' = false`), and concrete
  witnesses instantiate it with `Char.isAlphanum`, the ASCII fragment, on
  inputs where the two agree character by character.
-/

/-! ## Secret redaction (src/detector.rs, `mask_secret_in_line`) -/

/-- The character class replaced by the mask: the closure
`|c: char| c.is_alphanumeric() || c == '-' || c == '_' || c == '+' || c == '/' || c == '='`
passed to `str::replace` (detector.rs:248). -/
def isMaskChar (isAlnum : Char → Bool) (c : Char) : Bool :=
  isAlnum c || c == '-' || c == '_' || c == '+' || c == '/' || c == '='

/-- The replacement pass of `mask_secret_in_line`: `line.replace(class, "*")`
(the replacement string `"*".chars().take(1).collect::<String>()` is just `"*"`),
so every character of the class becomes a single `'*'`. -/
def maskChars (isAlnum : Char → Bool) (line : List Char) : List Char :=
  line.map fun c => if isMaskChar isAlnum c then '*' else c

/-- UTF-8 byte length of a string, i.e. Rust's `String::len`. -/
def utf8Len (l : List Char) : Nat :=
  l.foldr (fun c n => c.utf8Size + n) 0

/-- The byte slice `&s[..n]` of Rust: returns the characters occupying the
first `n` bytes, or `none` when byte `n` is not a character boundary (or is
past the end) — the case in which the Rust slice panics. -/
def takeBytes : Nat → List Char → Option (List Char)
  | 0, _ => some []
  | _ + 1, [] => none
  | n + 1, c :: rest =>
    if c.utf8Size ≤ n + 1 then (takeBytes (n + 1 - c.utf8Size) rest).map (c :: ·)
    else none

/-- `mask_secret_in_line` (detector.rs:245-256): mask the line, then if the
masked string is longer than 50 bytes return its first 50 bytes followed by
`"..."`.  The result is `none` exactly when the Rust code panics, i.e. when
byte 50 of the masked string is not a character boundary. -/
def mask_secret_in_line (isAlnum : Char → Bool) (line : List Char) : Option (List Char) :=
  let masked := maskChars isAlnum line
  if utf8Len masked > 50 then
    (takeBytes 50 masked).map (· ++ "...".data)
  else
    some masked

/-! ## Risk classification (src/main.rs, `get_file_risk_level`) and the
sensitive-extension table (src/protector.rs, `SensitiveFiles::get_extensions`) -/

/-- The extensions of the `"high"` match arm of `get_file_risk_level`
(main.rs:121). -/
def highRiskExtensions : List (List Char) :=
  [".env".data, ".env.local".data, ".env.prod".data, ".env.dev".data,
   ".pem".data, ".key".data, ".p12".data, ".pfx".data]

/-- The extensions of the `"medium"` match arm of `get_file_risk_level`
(main.rs:122). -/
def mediumRiskExtensions : List (List Char) :=
  [".env.example".data, ".json".data, ".yaml".data, ".yml".data,
   ".toml".data, ".sql".data, ".db".data]

/-- `get_file_risk_level` (main.rs:119-125), a pure match on the extension. -/
def get_file_risk_level (extension : List Char) : List Char :=
  if extension ∈ highRiskExtensions then "high".data
  else if extension ∈ mediumRiskExtensions then "medium".data
  else "low".data

namespace SensitiveFiles

/-- The "Keys & Credentials" group of `SensitiveFiles::get_extensions`
(protector.rs:52-59). -/
def keyCredentialGroup : List (List Char) :=
  [".pem".data, ".key".data, ".pub".data, ".p12".data, ".pfx".data, ".crt".data, ".cer".data]

/-- `SensitiveFiles::get_extensions` (protector.rs:35-71), as the list of
entries inserted into the hash set, in insertion order. -/
def get_extensions : List (List Char) :=
  [".env".data, ".env.local".data, ".env.prod".data, ".env.dev".data,
   ".env.example".data, ".env.sample".data,
   ".json".data, ".yaml".data, ".yml".data, ".toml".data, ".ini".data,
   ".conf".data, ".config".data] ++
  keyCredentialGroup ++
  [".sql".data, ".db".data, ".sqlite".data, ".sqlite3".data,
   ".log".data, ".bak".data, ".backup".data, ".old".data]

end SensitiveFiles

/-! ## Path-string helpers

Paths are plain strings (`List Char`).  These helpers model the small part
of `std::path::Path` the protector uses: `file_name`, `file_stem`,
`extension`, `with_file_name` and `join`.  Rust path components that never
arise at the call sites (`"."` components inside a name) are not special-cased;
trailing slashes and `".."`/empty names follow Rust's behaviour. -/

/-- Split a string at the last occurrence of `sep`:
`some (before, after)`, or `none` when `sep` does not occur. -/
def splitLastChar (sep : Char) : List Char → Option (List Char × List Char)
  | [] => none
  | c :: rest =>
    match splitLastChar sep rest with
    | some (pre, post) => some (c :: pre, post)
    | none => if c = sep then some ([], rest) else none

/-- Remove trailing `'/'` characters, as `Path` does before extracting
the file name. -/
def dropTrailingSlashes : List Char → List Char
  | [] => []
  | c :: rest =>
    let r := dropTrailingSlashes rest
    if r = [] ∧ c = '/' then [] else c :: r

/-- Rust `Path::file_name`: the final component of the path, ignoring
trailing slashes; `none` for an empty final component or `".."`. -/
def rustFileName (p : List Char) : Option (List Char) :=
  let q := dropTrailingSlashes p
  let base := match splitLastChar '/' q with
    | none => q
    | some (_, post) => post
  if base = [] ∨ base = "..".data then none else some base

/-- Rust `Path::file_stem` and `Path::extension` on a file name, as a pair:
split at the last `'.'`; a name whose only `'.'` is the leading one (such as
`".env"`) is all stem and has no extension (modelled as `[]`, matching the
`unwrap_or("")` at the use site). -/
def rustStemExt (name : List Char) : List Char × List Char :=
  match splitLastChar '.' name with
  | none => (name, [])
  | some (pre, post) => if pre = [] then (name, []) else (pre, post)

/-- Rust `Path::with_file_name`: replace the final component. -/
def withFileName (p newName : List Char) : List Char :=
  match splitLastChar '/' p with
  | none => newName
  | some (pre, _) => pre ++ '/' :: newName

/-- Decimal rendering of a natural number, i.e. `format!("{}", n)`. -/
def natRepr (n : Nat) : List Char :=
  if _h : n < 10 then [Char.ofNat (48 + n)]
  else natRepr (n / 10) ++ [Char.ofNat (48 + n % 10)]
decreasing_by exact Nat.div_lt_self (by omega) (by omega)

/-! ## Collision resolution (src/protector.rs, `FileProtector::get_unique_path`) -/

/-- The candidate name built in the loop body of `get_unique_path`
(protector.rs:331-335): `format!("{}_{}", stem, counter)` when the extension
is empty, `format!("{}_{}.{}", stem, counter, ext)` otherwise. -/
def mkNewName (stem ext : List Char) (counter : Nat) : List Char :=
  if ext = [] then stem ++ '_' :: natRepr counter
  else stem ++ '_' :: natRepr counter ++ '.' :: ext

/-- `path.file_stem().and_then(to_str).unwrap_or("file")` (protector.rs:322-324);
`file_stem` of a path is the stem of its file name and is `None` exactly when
the file name is. -/
def gupStem (path : List Char) : List Char :=
  match rustFileName path with
  | some n => (rustStemExt n).1
  | none => "file".data

/-- `path.extension().and_then(to_str).unwrap_or("")` (protector.rs:325-327). -/
def gupExt (path : List Char) : List Char :=
  match rustFileName path with
  | some n => (rustStemExt n).2
  | none => []

/-- The `loop` of `get_unique_path` (protector.rs:330-341), with explicit
fuel.  `ex` is the set of existing paths (`Path::exists` checks); the loop
returns the first candidate not in `ex`.  The top-level wrapper supplies
enough fuel for the loop to succeed (proved below), so the `none` case is
unreachable. -/
def uniqueLoop (ex : List (List Char)) (path stem ext : List Char) :
    Nat → Nat → Option (List Char)
  | _, 0 => none
  | counter, fuel + 1 =>
    let newPath := withFileName path (mkNewName stem ext counter)
    if newPath ∈ ex then uniqueLoop ex path stem ext (counter + 1) fuel
    else some newPath

/-- `FileProtector::get_unique_path` (protector.rs:317-342).  `ex` is the
list of paths existing on disk. -/
def get_unique_path (ex : List (List Char)) (path : List Char) : List Char :=
  if path ∈ ex then
    (uniqueLoop ex path (gupStem path) (gupExt path) 1 (ex.length + 1)).getD path
  else path

/-! ## The file system model and the protector
(src/protector.rs, `FileProtector`) -/

/-- A file system: an association list from path strings to byte contents. -/
def FS : Type := List (List Char × List Nat)

/-- The paths present on disk. -/
def fsPaths (fs : FS) : List (List Char) := fs.map Prod.fst

/-- `fs::read`: the content at `p`, or `none` when no such file exists. -/
def fsRead (fs : FS) (p : List Char) : Option (List Nat) :=
  (List.find? (fun e => e.1 = p) fs).map Prod.snd

/-- `fs::write`: create or overwrite the file at `p`. -/
def fsWrite (fs : FS) (p : List Char) (d : List Nat) : FS :=
  if (fs : List _).any (fun e => e.1 = p) then
    fs.map fun e => if e.1 = p then (p, d) else e
  else (p, d) :: fs

/-- `fs::remove_file`: delete the file at `p`. -/
def fsRemove (fs : FS) (p : List Char) : FS :=
  fs.filter fun e => ¬ e.1 = p

/-- Error-injection flags for the fallible OS and crypto calls: a `true`
flag makes the corresponding call take its `Err` branch. -/
structure IOEnv where
  readErr : Bool
  cipherErr : Bool
  encryptErr : Bool
  writeErr : Bool
  removeErr : Bool
  copyErr : Bool
  mkdirErr : Bool

/-- `ProtectAction` (protector.rs:24-28). -/
inductive ProtectAction where
  | Moved
  | Encrypted
  | Secured
deriving DecidableEq, Repr

/-- `ProtectResult` (protector.rs:14-20).  The interpolated OS error text of
the failure messages is abstracted away; each distinct `format!` template is
modelled by its fixed literal part. -/
structure ProtectResult where
  original_path : List Char
  protected_path : List Char
  action : ProtectAction
  success : Bool
  message : List Char
deriving DecidableEq, Repr

/-- `ProtectOption` (protector.rs:405-409). -/
inductive ProtectOption where
  | Move
  | Encrypt
  | Both
deriving DecidableEq, Repr

/-- `str::to_lowercase`, restricted to its ASCII action (Rust's version is
Unicode-aware; the two agree on every ASCII string, and no non-ASCII string
lowercases to any of the three ASCII keywords matched by `from_str`). -/
def asciiLowercase (s : List Char) : List Char := s.map Char.toLower

/-- `ProtectOption::from_str` (protector.rs:412-419): lowercase, match the
three keywords, default to `Move` on anything else. -/
def ProtectOption.from_str (s : List Char) : ProtectOption :=
  if asciiLowercase s = "move".data then .Move
  else if asciiLowercase s = "encrypt".data then .Encrypt
  else if asciiLowercase s = "both".data then .Both
  else .Move

/-- `FileProtector::move_to_secure` (protector.rs:180-215).  `fs::copy`
reads the source and writes the destination; its `Err` branch fires when the
source is unreadable or `env.copyErr` is set. -/
def move_to_secure (env : IOEnv) (secureDir : List Char) (fs : FS)
    (source : List Char) : FS × ProtectResult :=
  let fileName := (rustFileName source).getD "unknown".data
  let destPath := get_unique_path (fsPaths fs) (secureDir ++ '/' :: fileName)
  match (if env.copyErr then none else fsRead fs source) with
  | none =>
    (fs, ⟨source, [], .Moved, false, "Failed to move file".data⟩)
  | some content =>
    let fs1 := fsWrite fs destPath content
    if env.removeErr then
      (fs1, ⟨source, destPath, .Moved, true,
        "File copied to secure directory (original removal failed)".data⟩)
    else
      (fsRemove fs1 source, ⟨source, destPath, .Moved, true,
        "File moved to secure directory".data⟩)

/-- `FileProtector::encrypt_file` (protector.rs:218-314).  `key` is the
32-byte key (supplied by the caller or freshly generated — generation cannot
fail and its one-time printing is a side effect outside the model); `nonce`
is the fresh 12-byte random nonce; `aes` abstracts `Aes256Gcm::encrypt`,
returning ciphertext with the authentication tag appended. -/
def encrypt_file (aes : List Nat → List Nat → List Nat → List Nat)
    (env : IOEnv) (secureDir : List Char) (fs : FS) (source : List Char)
    (key nonce : List Nat) : FS × ProtectResult :=
  let fileName := (rustFileName source).getD "unknown".data
  match (if env.readErr then none else fsRead fs source) with
  | none =>
    (fs, ⟨source, [], .Encrypted, false, "Failed to read file".data⟩)
  | some plaintext =>
    if env.cipherErr then
      (fs, ⟨source, [], .Encrypted, false, "Failed to create cipher".data⟩)
    else if env.encryptErr then
      (fs, ⟨source, [], .Encrypted, false, "Encryption failed".data⟩)
    else
      let ciphertext := aes key nonce plaintext
      let encryptedData := nonce ++ ciphertext
      let encFileName := fileName ++ ".enc".data
      let destPath := get_unique_path (fsPaths fs) (secureDir ++ '/' :: encFileName)
      if env.writeErr then
        (fs, ⟨source, [], .Encrypted, false, "Failed to write encrypted file".data⟩)
      else
        let fs1 := fsWrite fs destPath encryptedData
        let fs2 := if env.removeErr then fs1 else fsRemove fs1 source
        (fs2, ⟨source, destPath, .Encrypted, true,
          "File encrypted and moved to secure directory".data⟩)

/-- `FileProtector::protect_file` (protector.rs:131-177): source-existence
check, secure-directory creation, then dispatch on the action.  Directories
are not tracked by the file-system model, so `create_dir_all` is a pure
success/failure flag. -/
def protect_file (aes : List Nat → List Nat → List Nat → List Nat)
    (env : IOEnv) (secureDir : List Char) (fs : FS) (source : List Char)
    (action : ProtectOption) (key nonce : List Nat) : FS × ProtectResult :=
  if fsRead fs source = none then
    (fs, ⟨source, [], .Secured, false, "Source file does not exist".data⟩)
  else if env.mkdirErr then
    (fs, ⟨source, [], .Secured, false, "Failed to create secure directory".data⟩)
  else
    match action with
    | .Move => move_to_secure env secureDir fs source
    | .Encrypt => encrypt_file aes env secureDir fs source key nonce
    | .Both =>
      let r := encrypt_file aes env secureDir fs source key nonce
      if r.2.success then (fsRemove r.1 source, r.2) else r

/-! ## Scan results and the report merge (src/main.rs, `scan_directory`) -/

/-- `SecretFinding` (src/detector.rs:7-12). -/
structure SecretFinding where
  secret_type : List Char
  line_number : Nat
  line_content : List Char
  matched_pattern : List Char
deriving DecidableEq, Repr

/-- `ScanResult` (src/main.rs:69-75). -/
structure ScanResult where
  path : List Char
  file_type : List Char
  risk_level : List Char
  secrets : List SecretFinding
deriving DecidableEq, Repr

/-- `Path::new(&file_path).extension()` followed by
`.map(|e| format!(".{}", e)).unwrap_or_default()` (main.rs:159-162): the
extension of the path's file name prefixed with a dot, or the empty string
when there is no extension (no dot, or only the leading dot of a
dotfile). -/
def scanFileType (p : List Char) : List Char :=
  match rustFileName p with
  | some n => (match splitLastChar '.' n with
      | none => []
      | some (pre, post) => if pre = [] then [] else '.' :: post)
  | none => []

/-- `results.iter_mut().find(|r| r.path == file_path)` followed by
`result.secrets = secrets` (main.rs:152-153): update the first result whose
path matches, or report `none` when no row matches. -/
def attachFirst (p : List Char) (secrets : List SecretFinding) :
    List ScanResult → Option (List ScanResult)
  | [] => none
  | r :: rest =>
    if r.path = p then some ({ r with secrets := secrets } :: rest)
    else (attachFirst p secrets rest).map (r :: ·)

/-- The merge loop of `scan_directory` (main.rs:147-173): fold the
detector's `(path, findings)` pairs into the classification results,
attaching findings to an existing row or appending a fresh `high`-risk row,
while accumulating `files_with_secrets` and `total_secrets`. -/
def mergeLoop : List (List Char × List SecretFinding) →
    List ScanResult → Nat → Nat → List ScanResult × Nat × Nat
  | [], results, fws, ts => (results, fws, ts)
  | (p, secrets) :: rest, results, fws, ts =>
    match attachFirst p secrets results with
    | some results' => mergeLoop rest results' (fws + 1) (ts + secrets.length)
    | none =>
      mergeLoop rest
        (results ++ [⟨p, scanFileType p, "high".data, secrets⟩])
        (fws + 1) (ts + secrets.length)

/-- Proof-auxiliary: the numeric value of a decimal digit string, used only
to establish that `natRepr` is injective. -/
def digitsVal (l : List Char) : Nat :=
  l.foldl (fun a c => 10 * a + (c.toNat - 48)) 0

/-! ## Helper lemmas: redaction -/

theorem utf8Len_append (a b : List Char) :
    utf8Len (a ++ b) = utf8Len a + utf8Len b := by
  induction a with
  | nil => simp [utf8Len]
  | cons c t ih =>
    simp only [utf8Len, List.foldr_cons, List.cons_append] at *
    omega

theorem mem_maskChars (al : Char → Bool) (l : List Char) (c : Char)
    (hc : c ∈ maskChars al l) (hm : isMaskChar al c = true) : c = '*' := by
  simp only [maskChars, List.mem_map] at hc
  obtain ⟨c0, _, hc0⟩ := hc
  by_cases h : isMaskChar al c0 = true
  · simp [h] at hc0; exact hc0.symm
  · simp [h] at hc0; subst hc0; exact absurd hm h

theorem maskChars_fixed (al : Char → Bool) (m : List Char)
    (h : ∀ c ∈ m, isMaskChar al c = true → c = '*') : maskChars al m = m := by
  induction m with
  | nil => rfl
  | cons c t ih =>
    have hc := h c (by simp)
    have ht := ih fun x hx => h x (by simp [hx])
    simp only [maskChars, List.map_cons] at ht ⊢
    by_cases hm : isMaskChar al c = true
    · rw [if_pos hm, ht, ← hc hm]
    · rw [if_neg hm, ht]

theorem takeBytes_some (n : Nat) (l pre : List Char)
    (h : takeBytes n l = some pre) :
    utf8Len pre = n ∧ ∃ suf, l = pre ++ suf := by
  induction l generalizing n pre with
  | nil =>
    cases n with
    | zero =>
      simp only [takeBytes, Option.some.injEq] at h
      subst h; exact ⟨rfl, ⟨[], rfl⟩⟩
    | succ k => simp [takeBytes] at h
  | cons c rest ih =>
    cases n with
    | zero =>
      simp only [takeBytes, Option.some.injEq] at h
      subst h; exact ⟨rfl, ⟨c :: rest, rfl⟩⟩
    | succ k =>
      simp only [takeBytes] at h
      by_cases hs : c.utf8Size ≤ k + 1
      · simp only [if_pos hs, Option.map_eq_some'] at h
        obtain ⟨pre', hpre', hcons⟩ := h
        obtain ⟨hlen, suf, hsuf⟩ := ih _ _ hpre'
        subst hcons
        refine ⟨?_, suf, by simp [hsuf]⟩
        simp only [utf8Len, List.foldr_cons] at *
        omega
      · simp [if_neg hs] at h

theorem takeBytes_append (pre suf : List Char) :
    takeBytes (utf8Len pre) (pre ++ suf) = some pre := by
  induction pre with
  | nil => simp [takeBytes, utf8Len]
  | cons c t ih =>
    have hpos : 0 < c.utf8Size := Char.utf8Size_pos c
    have : utf8Len (c :: t) = c.utf8Size + utf8Len t := by
      simp [utf8Len]
    rw [this]
    obtain ⟨m, hm⟩ : ∃ m, c.utf8Size + utf8Len t = m + 1 :=
      ⟨c.utf8Size + utf8Len t - 1, by omega⟩
    rw [hm]
    simp only [List.cons_append, takeBytes]
    have hle : c.utf8Size ≤ m + 1 := by omega
    rw [if_pos hle]
    have : m + 1 - c.utf8Size = utf8Len t := by omega
    rw [this]
    simp only [List.append_eq] at *
    rw [ih]
    rfl

/-! ## Claim C1 — risk tiers -/

/-- Claim C1, counterexample: `.pub` belongs to the classifier's
key/credential extension group, yet the risk-tier function classifies it
`"low"`, not `"high"` as the claim states. -/
theorem risk_level_pub_counterexample :
    ".pub".data ∈ SensitiveFiles.keyCredentialGroup
    ∧ ".pub".data ∈ SensitiveFiles.get_extensions
    ∧ get_file_risk_level ".pub".data = "low".data
    ∧ get_file_risk_level ".pub".data ≠ "high".data := by decide

/-- Claim C1 (amended): the risk-tier function maps exactly
`.env, .env.local, .env.prod, .env.dev, .pem, .key, .p12, .pfx` to `"high"`,
exactly `.env.example, .json, .yaml, .yml, .toml, .sql, .db` to `"medium"`,
and every other extension — including the key/credential extensions
`.pub`, `.crt`, `.cer`, the dotenv variant `.env.sample`, and the
config/database extensions `.ini`, `.conf`, `.config`, `.sqlite`,
`.sqlite3` — to `"low"`. -/
theorem risk_level_tiers (e : List Char) :
    (get_file_risk_level e = "high".data ↔ e ∈ highRiskExtensions)
    ∧ (get_file_risk_level e = "medium".data ↔ e ∈ mediumRiskExtensions)
    ∧ (get_file_risk_level e = "low".data ↔
        (e ∉ highRiskExtensions ∧ e ∉ mediumRiskExtensions)) := by
  have hdisj : ∀ x ∈ highRiskExtensions, x ∉ mediumRiskExtensions := by decide
  unfold get_file_risk_level
  by_cases h1 : e ∈ highRiskExtensions
  · rw [if_pos h1]
    exact ⟨⟨fun _ => h1, fun _ => rfl⟩,
           ⟨fun hm => absurd hm (by decide), fun hm => absurd hm (hdisj e h1)⟩,
           ⟨fun hl => absurd hl (by decide), fun hl => absurd h1 hl.1⟩⟩
  · rw [if_neg h1]
    by_cases h2 : e ∈ mediumRiskExtensions
    · rw [if_pos h2]
      exact ⟨⟨fun hh => absurd hh (by decide), fun hh => absurd hh h1⟩,
             ⟨fun _ => h2, fun _ => rfl⟩,
             ⟨fun hl => absurd hl (by decide), fun hl => absurd h2 hl.2⟩⟩
    · rw [if_neg h2]
      exact ⟨⟨fun hh => absurd hh (by decide), fun hh => absurd hh h1⟩,
             ⟨fun hm => absurd hm (by decide), fun hm => absurd hm h2⟩,
             ⟨fun _ => ⟨h1, h2⟩, fun _ => rfl⟩⟩

/-! ## Claim C5 — redaction rule and truncation -/

/-- Claim C5, counterexample: on a 60-character line of unmasked two-byte
characters, the masked line has 60 > 50 characters, but the function does
not truncate it to its first 50 characters — it truncates to the first 50
bytes, i.e. 25 characters. -/
theorem mask_line_truncation_counterexample :
    maskChars Char.isAlphanum (List.replicate 60 '§') = List.replicate 60 '§'
    ∧ 50 < (maskChars Char.isAlphanum (List.replicate 60 '§')).length
    ∧ mask_secret_in_line Char.isAlphanum (List.replicate 60 '§') =
        some (List.replicate 25 '§' ++ "...".data)
    ∧ mask_secret_in_line Char.isAlphanum (List.replicate 60 '§') ≠
        some ((maskChars Char.isAlphanum (List.replicate 60 '§')).take 50
          ++ "...".data) := by decide

/-- Claim C5 (amended): whenever the redaction function returns (does not
panic), it replaces exactly the characters of the mask class (alphanumerics
and `- _ + / =`) with `'*'`, leaving every other character unchanged, and if
the masked line exceeds 50 UTF-8 bytes (not characters) it is cut at its
first 50 bytes with the `"..."` marker appended; otherwise it is returned
whole. -/
theorem mask_line_spec (al : Char → Bool) (line out : List Char)
    (h : mask_secret_in_line al line = some out) :
    (∀ i : Nat, (maskChars al line)[i]? =
        ((line)[i]?).map fun c => if isMaskChar al c then '*' else c)
    ∧ (utf8Len (maskChars al line) ≤ 50 → out = maskChars al line)
    ∧ (50 < utf8Len (maskChars al line) →
        ∃ pre suf, maskChars al line = pre ++ suf ∧ utf8Len pre = 50 ∧
          out = pre ++ "...".data) := by
  refine ⟨fun i => by simp [maskChars], ?_, ?_⟩
  · intro hle
    simp only [mask_secret_in_line] at h
    rw [if_neg (by omega)] at h
    exact (Option.some.inj h).symm
  · intro hgt
    simp only [mask_secret_in_line] at h
    rw [if_pos (by omega), Option.map_eq_some'] at h
    obtain ⟨pre, hpre, hout⟩ := h
    obtain ⟨hlen, suf, hsuf⟩ := takeBytes_some _ _ _ hpre
    exact ⟨pre, suf, hsuf, hlen, hout.symm⟩

/-- Claim C5, witness for `mask_line_spec` at the line `"k=1"`. -/
theorem mask_line_spec_witness :
    mask_secret_in_line Char.isAlphanum "k=1".data = some "***".data
    ∧ "***".data = maskChars Char.isAlphanum "k=1".data :=
  ⟨by decide, (mask_line_spec Char.isAlphanum "k=1".data "***".data
      (by decide)).2.1 (by decide)⟩

/-! ## Claim C6 — redaction idempotence -/

/-- Claim C6: redaction is idempotent — whenever redacting a line returns a
result, redacting that result returns it unchanged.  The two hypotheses on
the alphanumeric predicate (`'*'` and `'.'` are not alphanumeric) hold for
Rust's Unicode `char::is_alphanumeric`. -/
theorem mask_idempotent (al : Char → Bool) (hstar : al '*' = false)
    (hdot : al '.' = false) (line out : List Char)
    (h : mask_secret_in_line al line = some out) :
    mask_secret_in_line al out = some out := by
  have hstar' : isMaskChar al '*' = false := by
    simp only [isMaskChar, hstar, Bool.false_or]; decide
  have hdot' : isMaskChar al '.' = false := by
    simp only [isMaskChar, hdot, Bool.false_or]; decide
  simp only [mask_secret_in_line] at h ⊢
  by_cases hlen : utf8Len (maskChars al line) > 50
  · rw [if_pos hlen, Option.map_eq_some'] at h
    obtain ⟨pre, hpre, hout⟩ := h
    obtain ⟨hplen, suf, hsuf⟩ := takeBytes_some _ _ _ hpre
    have hfix : maskChars al out = out := by
      apply maskChars_fixed
      intro c hc hm
      rw [← hout] at hc
      rcases List.mem_append.mp hc with hcp | hcd
      · exact mem_maskChars al line c (hsuf ▸ List.mem_append.mpr (Or.inl hcp)) hm
      · have hc' : c = '.' :=
          List.eq_of_mem_replicate (show c ∈ List.replicate 3 '.' from hcd)
        rw [hc'] at hm; rw [hdot'] at hm; exact absurd hm (by decide)
    rw [hfix]
    have houtlen : utf8Len out = 53 := by
      rw [← hout, utf8Len_append, hplen]; rfl
    rw [if_pos (by omega)]
    have : takeBytes 50 out = some pre := by
      rw [← hout, ← hplen]
      exact takeBytes_append pre "...".data
    rw [this]
    simp [hout]
  · rw [if_neg hlen] at h
    have hmo : maskChars al line = out := Option.some.inj h
    have hfix : maskChars al out = out := by
      apply maskChars_fixed
      intro c hc hm
      exact mem_maskChars al line c (hmo ▸ hc) hm
    rw [hfix, if_neg (hmo ▸ hlen)]

/-- Claim C6, witness for `mask_idempotent` at the line `"a=b!"`. -/
theorem mask_idempotent_witness :
    mask_secret_in_line Char.isAlphanum "a=b!".data = some "***!".data
    ∧ mask_secret_in_line Char.isAlphanum "***!".data = some "***!".data :=
  ⟨by decide, mask_idempotent Char.isAlphanum (by decide) (by decide)
    "a=b!".data "***!".data (by decide)⟩

/-! ## Claim C9 — the redaction function can panic -/

/-- Claim C9, refutation: on the 26-character line `'!'` followed by 25
copies of the two-byte character `'§'`, no character is masked, the masked
line is 51 bytes long, and byte 50 falls inside the final character, so the
byte slice `&masked[..50]` panics (modelled as `none`). -/
theorem mask_panics_on_multibyte :
    maskChars Char.isAlphanum ('!' :: List.replicate 25 '§') =
      '!' :: List.replicate 25 '§'
    ∧ 50 < utf8Len (maskChars Char.isAlphanum ('!' :: List.replicate 25 '§'))
    ∧ mask_secret_in_line Char.isAlphanum ('!' :: List.replicate 25 '§') =
        none := by decide

/-! ## Claim C10 — parsing the protection action -/

/-- Claim C10: `from_str` maps the case-insensitive spellings of the three
keywords to their actions, and every other string — misspellings and the
empty string included — silently to `Move`. -/
theorem protect_option_from_str_spec (s : List Char) :
    (asciiLowercase s = "move".data → ProtectOption.from_str s = ProtectOption.Move)
    ∧ (asciiLowercase s = "encrypt".data →
        ProtectOption.from_str s = ProtectOption.Encrypt)
    ∧ (asciiLowercase s = "both".data → ProtectOption.from_str s = ProtectOption.Both)
    ∧ (asciiLowercase s ≠ "move".data → asciiLowercase s ≠ "encrypt".data →
        asciiLowercase s ≠ "both".data →
        ProtectOption.from_str s = ProtectOption.Move) := by
  unfold ProtectOption.from_str
  exact ⟨fun h => by rw [if_pos h],
         fun h => by rw [h]; decide,
         fun h => by rw [h]; decide,
         fun h1 h2 h3 => by rw [if_neg h1, if_neg h2, if_neg h3]⟩

/-- Claim C10, witness for `protect_option_from_str_spec` at mixed-case
spellings, a misspelling, and the empty string. -/
theorem protect_option_from_str_witness :
    ProtectOption.from_str "MoVe".data = ProtectOption.Move
    ∧ ProtectOption.from_str "ENCRYPT".data = ProtectOption.Encrypt
    ∧ ProtectOption.from_str "bOtH".data = ProtectOption.Both
    ∧ ProtectOption.from_str "enrcypt".data = ProtectOption.Move
    ∧ ProtectOption.from_str [] = ProtectOption.Move :=
  ⟨(protect_option_from_str_spec _).1 (by decide),
   (protect_option_from_str_spec _).2.1 (by decide),
   (protect_option_from_str_spec _).2.2.1 (by decide),
   (protect_option_from_str_spec _).2.2.2 (by decide) (by decide) (by decide),
   (protect_option_from_str_spec _).2.2.2 (by decide) (by decide) (by decide)⟩

/-! ## Helper lemmas: decimal rendering -/

theorem digit_toNat (n : Nat) (h : n < 10) :
    (Char.ofNat (48 + n)).toNat = 48 + n := by
  interval_cases n <;> decide

theorem digitsVal_snoc (l : List Char) (c : Char) :
    digitsVal (l ++ [c]) = 10 * digitsVal l + (c.toNat - 48) := by
  simp only [digitsVal, List.foldl_append, List.foldl_cons, List.foldl_nil]

theorem natRepr_val (n : Nat) : digitsVal (natRepr n) = n := by
  induction n using Nat.strong_induction_on with
  | _ n ih =>
    rw [natRepr]
    by_cases h : n < 10
    · rw [dif_pos h]
      have hd := digit_toNat n h
      simp only [digitsVal, List.foldl_cons, List.foldl_nil, hd]
      omega
    · rw [dif_neg h, digitsVal_snoc]
      have hd : n % 10 < 10 := Nat.mod_lt _ (by omega)
      have hdig := digit_toNat (n % 10) hd
      have hih := ih (n / 10) (Nat.div_lt_self (by omega) (by omega))
      rw [hih, hdig]
      omega

theorem natRepr_injective (m n : Nat) (h : natRepr m = natRepr n) : m = n := by
  have hm := natRepr_val m
  rw [h, natRepr_val n] at hm
  exact hm.symm

/-! ## Helper lemmas: path strings -/

theorem splitLastChar_eq_none (sep : Char) (l : List Char) :
    splitLastChar sep l = none ↔ sep ∉ l := by
  induction l with
  | nil => simp [splitLastChar]
  | cons c rest ih =>
    cases hr : splitLastChar sep rest with
    | some pr =>
      obtain ⟨pre, post⟩ := pr
      simp only [splitLastChar, hr]
      have hmem : sep ∈ rest := by
        by_contra hnm
        have h0 := ih.mpr hnm
        rw [hr] at h0
        exact Option.noConfusion h0
      constructor
      · intro hx; exact Option.noConfusion hx
      · intro hx; exact absurd (List.mem_cons.mpr (Or.inr hmem)) hx
    | none =>
      simp only [splitLastChar, hr]
      by_cases hc : c = sep
      · rw [if_pos hc]
        constructor
        · intro hx; exact Option.noConfusion hx
        · intro hx
          exfalso; apply hx
          rw [hc]; exact List.mem_cons_self sep rest
      · rw [if_neg hc]
        constructor
        · intro _ hmem
          rcases List.mem_cons.mp hmem with h1 | h2
          · exact hc h1.symm
          · exact (ih.mp hr) h2
        · intro _; rfl

theorem splitLastChar_some (sep : Char) (l a b : List Char)
    (h : splitLastChar sep l = some (a, b)) :
    l = a ++ sep :: b ∧ sep ∉ b := by
  induction l generalizing a b with
  | nil => exact Option.noConfusion h
  | cons c rest ih =>
    cases hr : splitLastChar sep rest with
    | some pr =>
      obtain ⟨pre, post⟩ := pr
      simp only [splitLastChar, hr, Option.some.injEq, Prod.mk.injEq] at h
      obtain ⟨h1, h2⟩ := h
      subst h1; subst h2
      obtain ⟨hl, hnb⟩ := ih pre post hr
      exact ⟨by rw [hl]; rfl, hnb⟩
    | none =>
      simp only [splitLastChar, hr] at h
      by_cases hc : c = sep
      · rw [if_pos hc] at h
        simp only [Option.some.injEq, Prod.mk.injEq] at h
        obtain ⟨h1, h2⟩ := h
        subst h1; subst h2
        exact ⟨by rw [hc]; rfl, (splitLastChar_eq_none sep rest).mp hr⟩
      · rw [if_neg hc] at h
        exact Option.noConfusion h

theorem splitLastChar_append (sep : Char) (xs ys : List Char)
    (hys : sep ∉ ys) : splitLastChar sep (xs ++ sep :: ys) = some (xs, ys) := by
  induction xs with
  | nil =>
    have hr : splitLastChar sep ys = none := (splitLastChar_eq_none sep ys).mpr hys
    simp only [List.nil_append, splitLastChar, hr]
    simp
  | cons c t ih =>
    simp only [List.cons_append, splitLastChar, List.append_eq, ih]

theorem dropTrailingSlashes_no_slash (l : List Char) (h : '/' ∉ l) :
    dropTrailingSlashes l = l := by
  induction l with
  | nil => rfl
  | cons c rest ih =>
    have hc : ¬ (c = '/') := fun hx => h (by rw [hx]; exact List.mem_cons_self _ _)
    have hr := ih fun hm => h (List.mem_cons.mpr (Or.inr hm))
    simp only [dropTrailingSlashes, hr]
    rw [if_neg fun hand => hc hand.2]

theorem dropTrailingSlashes_concat (xs ys : List Char) (hys : ys ≠ [])
    (hs : '/' ∉ ys) : dropTrailingSlashes (xs ++ '/' :: ys) = xs ++ '/' :: ys := by
  induction xs with
  | nil =>
    simp only [List.nil_append, dropTrailingSlashes,
      dropTrailingSlashes_no_slash ys hs]
    rw [if_neg fun hand => hys hand.1]
  | cons c t ih =>
    simp only [List.cons_append, dropTrailingSlashes, List.append_eq, ih]
    rw [if_neg fun hand => absurd hand.1 (by simp)]

theorem rustFileName_concat (xs ys : List Char) (h1 : '/' ∉ ys) (h2 : ys ≠ [])
    (h3 : ys ≠ "..".data) : rustFileName (xs ++ '/' :: ys) = some ys := by
  simp only [rustFileName, dropTrailingSlashes_concat xs ys h2 h1,
    splitLastChar_append '/' xs ys h1]
  rw [if_neg fun hor => hor.elim h2 h3]

theorem rustFileName_shape (p n : List Char) (h : rustFileName p = some n) :
    n ≠ [] ∧ '/' ∉ n := by
  simp only [rustFileName] at h
  cases hq : splitLastChar '/' (dropTrailingSlashes p) with
  | none =>
    simp only [hq] at h
    split_ifs at h with hcond
    have hbn := Option.some.inj h
    refine ⟨fun hx => hcond (Or.inl (hbn.trans hx)), ?_⟩
    rw [← hbn]
    exact (splitLastChar_eq_none '/' _).mp hq
  | some pr =>
    obtain ⟨pre, post⟩ := pr
    simp only [hq] at h
    split_ifs at h with hcond
    have hbn := Option.some.inj h
    refine ⟨fun hx => hcond (Or.inl (hbn.trans hx)), ?_⟩
    rw [← hbn]
    exact (splitLastChar_some '/' _ pre post hq).2

theorem withFileName_concat (xs name new : List Char) (h : '/' ∉ name) :
    withFileName (xs ++ '/' :: name) new = xs ++ '/' :: new := by
  simp only [withFileName, splitLastChar_append '/' xs name h]

theorem withFileName_inj (p a b : List Char)
    (h : withFileName p a = withFileName p b) : a = b := by
  simp only [withFileName] at h
  cases hq : splitLastChar '/' p with
  | none => simpa only [hq] using h
  | some pr =>
    obtain ⟨pre, post⟩ := pr
    simp only [hq] at h
    exact (List.cons.inj (List.append_cancel_left h)).2

theorem rustStemExt_concat (pre tail : List Char) (hp : pre ≠ [])
    (he : '.' ∉ tail) : rustStemExt (pre ++ '.' :: tail) = (pre, tail) := by
  simp only [rustStemExt, splitLastChar_append '.' pre tail he, if_neg hp]

theorem mkNewName_injective (stem ext : List Char) (i j : Nat)
    (h : mkNewName stem ext i = mkNewName stem ext j) : i = j := by
  unfold mkNewName at h
  by_cases he : ext = []
  · rw [if_pos he, if_pos he] at h
    exact natRepr_injective i j (List.cons.inj (List.append_cancel_left h)).2
  · rw [if_neg he, if_neg he] at h
    have h1 := List.append_cancel_right h
    have h2 := List.append_cancel_left h1
    exact natRepr_injective i j (List.cons.inj h2).2

/-! ## Helper lemmas: collision resolution -/

theorem exists_free_candidate (ex : List (List Char)) (path stem ext : List Char) :
    ∃ k, k < ex.length + 1 ∧
      withFileName path (mkNewName stem ext (1 + k)) ∉ ex := by
  by_contra hall
  push_neg at hall
  have hinj : Function.Injective
      (fun k => withFileName path (mkNewName stem ext (1 + k))) := by
    intro i j hij
    have h1 := withFileName_inj path _ _ hij
    have h2 := mkNewName_injective stem ext (1 + i) (1 + j) h1
    omega
  have hnd : ((List.range (ex.length + 1)).map
      (fun k => withFileName path (mkNewName stem ext (1 + k)))).Nodup :=
    List.Nodup.map hinj (List.nodup_range _)
  have hsub : ((List.range (ex.length + 1)).map
      (fun k => withFileName path (mkNewName stem ext (1 + k)))).toFinset ⊆
      ex.toFinset := by
    intro x hx
    rw [List.mem_toFinset] at hx ⊢
    rw [List.mem_map] at hx
    obtain ⟨k, hk, hxk⟩ := hx
    rw [List.mem_range] at hk
    exact hxk ▸ hall k hk
  have hc1 := List.toFinset_card_of_nodup hnd
  have hc2 := List.toFinset_card_le ex
  have hc3 := Finset.card_le_card hsub
  rw [List.length_map, List.length_range] at hc1
  omega

theorem uniqueLoop_spec (ex : List (List Char)) (path stem ext : List Char) :
    ∀ fuel counter,
      (∃ k, k < fuel ∧ withFileName path (mkNewName stem ext (counter + k)) ∉ ex) →
      ∃ i, counter ≤ i
        ∧ withFileName path (mkNewName stem ext i) ∉ ex
        ∧ (∀ j, counter ≤ j → j < i → withFileName path (mkNewName stem ext j) ∈ ex)
        ∧ uniqueLoop ex path stem ext counter fuel =
            some (withFileName path (mkNewName stem ext i)) := by
  intro fuel
  induction fuel with
  | zero =>
    intro counter h
    obtain ⟨k, hk, _⟩ := h
    omega
  | succ f ih =>
    intro counter h
    obtain ⟨k, hk, hfree⟩ := h
    by_cases hmem : withFileName path (mkNewName stem ext counter) ∈ ex
    · have hk0 : k ≠ 0 := by
        intro h0; rw [h0, Nat.add_zero] at hfree; exact hfree hmem
      obtain ⟨i, hle, hfree', hmin, heq⟩ := ih (counter + 1)
        ⟨k - 1, by omega, by
          have harith : counter + 1 + (k - 1) = counter + k := by omega
          rw [harith]; exact hfree⟩
      refine ⟨i, by omega, hfree', ?_, ?_⟩
      · intro j hj1 hj2
        by_cases hjc : j = counter
        · rw [hjc]; exact hmem
        · exact hmin j (by omega) hj2
      · simp only [uniqueLoop, if_pos hmem]
        exact heq
    · exact ⟨counter, le_refl _, hmem,
        fun j hj1 hj2 => absurd (lt_of_le_of_lt hj1 hj2) (lt_irrefl _),
        by simp only [uniqueLoop, if_neg hmem]⟩

theorem get_unique_path_not_mem (ex : List (List Char)) (p : List Char) :
    get_unique_path ex p ∉ ex := by
  unfold get_unique_path
  by_cases hp : p ∈ ex
  · rw [if_pos hp]
    obtain ⟨k, hk, hfree⟩ := exists_free_candidate ex p (gupStem p) (gupExt p)
    obtain ⟨i, _, hfree', _, heq⟩ := uniqueLoop_spec ex p (gupStem p) (gupExt p)
      (ex.length + 1) 1 ⟨k, hk, hfree⟩
    rw [heq, Option.getD_some]
    exact hfree'
  · rw [if_neg hp]; exact hp

/-! ## Claim C4 — collision resolution -/

/-- Claim C4: for a destination path that already exists, `get_unique_path`
returns a candidate built by inserting `_i` between the stem and the
extension for the least free index `i ≥ 1` (every smaller index is taken);
the result is a pure function of the existing-path set (deterministic),
never an existing path; and re-protecting after the first result has been
created on disk yields a different path. -/
theorem get_unique_path_spec (ex : List (List Char)) (p : List Char)
    (hp : p ∈ ex) :
    (∃ i, 1 ≤ i
      ∧ get_unique_path ex p = withFileName p (mkNewName (gupStem p) (gupExt p) i)
      ∧ withFileName p (mkNewName (gupStem p) (gupExt p) i) ∉ ex
      ∧ ∀ j, 1 ≤ j → j < i →
          withFileName p (mkNewName (gupStem p) (gupExt p) j) ∈ ex)
    ∧ get_unique_path ex p ∉ ex
    ∧ ∀ ex', get_unique_path ex p ∈ ex' →
        get_unique_path ex' p ≠ get_unique_path ex p := by
  refine ⟨?_, get_unique_path_not_mem ex p, ?_⟩
  · obtain ⟨k, hk, hfree⟩ := exists_free_candidate ex p (gupStem p) (gupExt p)
    obtain ⟨i, hle, hfree', hmin, heq⟩ := uniqueLoop_spec ex p (gupStem p) (gupExt p)
      (ex.length + 1) 1 ⟨k, hk, hfree⟩
    refine ⟨i, hle, ?_, hfree', hmin⟩
    unfold get_unique_path
    rw [if_pos hp, heq, Option.getD_some]
  · intro ex' hmem heq2
    have hnm := get_unique_path_not_mem ex' p
    rw [heq2] at hnm
    exact hnm hmem

/-- Claim C4, witness for `get_unique_path_spec` on a one-file quarantine. -/
theorem get_unique_path_spec_witness :
    get_unique_path ["d/a.txt".data] "d/a.txt".data ∉ ["d/a.txt".data] :=
  (get_unique_path_spec ["d/a.txt".data] "d/a.txt".data (by decide)).2.1

/-! ## Helper lemmas: the file-system model -/

theorem fsRead_eq_none_iff (fs : FS) (p : List Char) :
    fsRead fs p = none ↔ p ∉ fsPaths fs := by
  simp only [fsRead, Option.map_eq_none', List.find?_eq_none, decide_eq_true_eq,
    fsPaths, List.mem_map, not_exists]
  constructor
  · intro h
    intro e
    intro hand
    exact h e hand.1 hand.2
  · intro h e he hep
    exact h e ⟨he, hep⟩

theorem fsRead_some_mem (fs : FS) (p : List Char) (c : List Nat)
    (h : fsRead fs p = some c) : p ∈ fsPaths fs := by
  by_contra hnm
  rw [← fsRead_eq_none_iff] at hnm
  rw [h] at hnm
  exact Option.noConfusion hnm

theorem fsWrite_fresh (fs : FS) (p : List Char) (d : List Nat)
    (h : p ∉ fsPaths fs) : fsWrite fs p d = (p, d) :: fs := by
  unfold fsWrite
  rw [if_neg]
  intro hany
  rw [List.any_eq_true] at hany
  obtain ⟨e, he, hep⟩ := hany
  simp only [decide_eq_true_eq] at hep
  exact h (List.mem_map.mpr ⟨e, he, hep⟩)

theorem fsRead_cons_self (a : List Char) (b : List Nat) (fs : FS) :
    fsRead ((a, b) :: fs) a = some b := by
  unfold fsRead
  rw [List.find?_cons_of_pos _ (by simp)]
  rfl

theorem fsRead_cons_ne (a : List Char) (b : List Nat) (fs : FS) (q : List Char)
    (h : q ≠ a) : fsRead ((a, b) :: fs) q = fsRead fs q := by
  unfold fsRead
  rw [List.find?_cons_of_neg _ (by simp only [decide_eq_true_eq]; exact fun hh => h hh.symm)]

theorem fsRead_fsRemove_self (fs : FS) (p : List Char) :
    fsRead (fsRemove fs p) p = none := by
  unfold fsRead fsRemove
  rw [Option.map_eq_none', List.find?_eq_none]
  intro x hx
  rw [List.mem_filter] at hx
  simp only [decide_eq_true_eq] at hx ⊢
  exact hx.2

theorem fsRead_fsRemove_ne (fs : FS) (p q : List Char) (h : q ≠ p) :
    fsRead (fsRemove fs p) q = fsRead fs q := by
  induction fs with
  | nil => rfl
  | cons e t ih =>
    obtain ⟨a, b⟩ := e
    by_cases hap : a = p
    · have hstep : fsRemove ((a, b) :: t) p = fsRemove t p := by
        simp [fsRemove, List.filter_cons, hap]
      rw [hstep, ih]
      exact (fsRead_cons_ne a b t q fun hq => h (hq.trans hap)).symm
    · have hstep : fsRemove ((a, b) :: t) p = (a, b) :: fsRemove t p := by
        simp [fsRemove, List.filter_cons, hap]
      rw [hstep]
      by_cases hqa : q = a
      · rw [hqa, fsRead_cons_self, fsRead_cons_self]
      · rw [fsRead_cons_ne a b _ q hqa, fsRead_cons_ne a b t q hqa, ih]

/-! ## Helper lemmas: the encrypt path -/

theorem encrypt_file_failure (aes : List Nat → List Nat → List Nat → List Nat)
    (env : IOEnv) (secureDir : List Char) (fs : FS) (source : List Char)
    (key nonce content : List Nat)
    (hsrc : fsRead fs source = some content)
    (hfail : env.readErr = true ∨ env.cipherErr = true ∨ env.encryptErr = true
      ∨ env.writeErr = true) :
    (encrypt_file aes env secureDir fs source key nonce).2.success = false
    ∧ (encrypt_file aes env secureDir fs source key nonce).2.protected_path = []
    ∧ (encrypt_file aes env secureDir fs source key nonce).1 = fs := by
  cases hre : env.readErr with
  | true => simp [encrypt_file, hre]
  | false =>
    cases hci : env.cipherErr with
    | true => simp [encrypt_file, hre, hci, hsrc]
    | false =>
      cases hen : env.encryptErr with
      | true => simp [encrypt_file, hre, hci, hen, hsrc]
      | false =>
        cases hwr : env.writeErr with
        | true => simp [encrypt_file, hre, hci, hen, hwr, hsrc]
        | false =>
          rw [hre, hci, hen, hwr] at hfail
          simp at hfail

/-! ## Claim C2 — encryption failures leave the source untouched -/

/-- Claim C2: if reading the source, constructing the cipher, encrypting, or
writing the destination fails, `protect_file` with the `Encrypt` action
returns `success = false` with an empty `protected_path`, and the plaintext
source still has its original content (key generation cannot fail in the
code, so it contributes no failure case). -/
theorem protect_encrypt_failure (aes : List Nat → List Nat → List Nat → List Nat)
    (env : IOEnv) (secureDir : List Char) (fs : FS) (source : List Char)
    (key nonce content : List Nat)
    (hsrc : fsRead fs source = some content)
    (hfail : env.readErr = true ∨ env.cipherErr = true ∨ env.encryptErr = true
      ∨ env.writeErr = true) :
    (protect_file aes env secureDir fs source ProtectOption.Encrypt key nonce).2.success
      = false
    ∧ (protect_file aes env secureDir fs source
        ProtectOption.Encrypt key nonce).2.protected_path = []
    ∧ fsRead (protect_file aes env secureDir fs source
        ProtectOption.Encrypt key nonce).1 source = some content := by
  unfold protect_file
  rw [if_neg (fun hx => by rw [hsrc] at hx; exact Option.noConfusion hx)]
  cases hmk : env.mkdirErr with
  | true =>
    rw [if_pos rfl]
    exact ⟨rfl, rfl, hsrc⟩
  | false =>
    rw [if_neg Bool.false_ne_true]
    obtain ⟨h1, h2, h3⟩ := encrypt_file_failure aes env secureDir fs source
      key nonce content hsrc hfail
    exact ⟨h1, h2, by rw [h3]; exact hsrc⟩

/-- Claim C2, witness for `protect_encrypt_failure`: a write failure on a
one-file store leaves the source readable and the result unsuccessful. -/
theorem protect_encrypt_failure_witness :
    (protect_file (fun _ _ pt => pt) ⟨false, false, false, true, false, false, false⟩
      "q".data [("a.env".data, [7])] "a.env".data
      ProtectOption.Encrypt [] []).2.success = false
    ∧ (protect_file (fun _ _ pt => pt) ⟨false, false, false, true, false, false, false⟩
      "q".data [("a.env".data, [7])] "a.env".data
      ProtectOption.Encrypt [] []).2.protected_path = []
    ∧ fsRead (protect_file (fun _ _ pt => pt)
        ⟨false, false, false, true, false, false, false⟩
        "q".data [("a.env".data, [7])] "a.env".data
        ProtectOption.Encrypt [] []).1 "a.env".data = some [7] :=
  protect_encrypt_failure (fun _ _ pt => pt)
    ⟨false, false, false, true, false, false, false⟩
    "q".data [("a.env".data, [7])] "a.env".data [] [] [7]
    (by decide) (Or.inr (Or.inr (Or.inr rfl)))

/-! ## Claim C8 — move succeeds even when the source deletion fails -/

/-- Claim C8: when the copy into the quarantine succeeds, `move_to_secure`
reports `success = true` whether or not the subsequent source deletion
succeeds, and a deletion failure changes only the `message` field of the
result. -/
theorem move_success_despite_remove_failure (env : IOEnv)
    (secureDir : List Char) (fs : FS) (source : List Char) (content : List Nat)
    (hsrc : fsRead fs source = some content) (hcp : env.copyErr = false) :
    (move_to_secure { env with removeErr := false } secureDir fs source).2.success = true
    ∧ (move_to_secure { env with removeErr := true } secureDir fs source).2.success = true
    ∧ (move_to_secure { env with removeErr := true } secureDir fs source).2.original_path
      = (move_to_secure { env with removeErr := false } secureDir fs source).2.original_path
    ∧ (move_to_secure { env with removeErr := true } secureDir fs source).2.protected_path
      = (move_to_secure { env with removeErr := false } secureDir fs source).2.protected_path
    ∧ (move_to_secure { env with removeErr := true } secureDir fs source).2.action
      = (move_to_secure { env with removeErr := false } secureDir fs source).2.action
    ∧ (move_to_secure { env with removeErr := true } secureDir fs source).2.message
      ≠ (move_to_secure { env with removeErr := false } secureDir fs source).2.message := by
  have hOk : (move_to_secure { env with removeErr := false } secureDir fs source).2 =
      ⟨source, get_unique_path (fsPaths fs)
          (secureDir ++ '/' :: (rustFileName source).getD "unknown".data),
        ProtectAction.Moved, true, "File moved to secure directory".data⟩ := by
    simp [move_to_secure, hcp, hsrc]
  have hFail : (move_to_secure { env with removeErr := true } secureDir fs source).2 =
      ⟨source, get_unique_path (fsPaths fs)
          (secureDir ++ '/' :: (rustFileName source).getD "unknown".data),
        ProtectAction.Moved, true,
        "File copied to secure directory (original removal failed)".data⟩ := by
    simp [move_to_secure, hcp, hsrc]
  rw [hOk, hFail]
  refine ⟨rfl, rfl, rfl, rfl, rfl, ?_⟩
  show ("File copied to secure directory (original removal failed)".data : List Char)
    ≠ "File moved to secure directory".data
  decide

/-- Claim C8, witness for `move_success_despite_remove_failure` on a
one-file store. -/
theorem move_success_despite_remove_failure_witness :
    (move_to_secure ⟨false, false, false, false, true, false, false⟩
      "q".data [("a.env".data, [7])] "a.env".data).2.success = true :=
  (move_success_despite_remove_failure
    ⟨false, false, false, false, true, false, false⟩
    "q".data [("a.env".data, [7])] "a.env".data [7] (by decide) rfl).2.1

/-! ## Helper lemmas: the successful encrypt path -/

theorem get_unique_path_shape (ex : List (List Char)) (p : List Char) :
    get_unique_path ex p = p ∨
    ∃ i, 1 ≤ i ∧ get_unique_path ex p =
      withFileName p (mkNewName (gupStem p) (gupExt p) i) := by
  unfold get_unique_path
  by_cases hp : p ∈ ex
  · rw [if_pos hp]
    obtain ⟨k, hk, hfree⟩ := exists_free_candidate ex p (gupStem p) (gupExt p)
    obtain ⟨i, hle, _, _, heq⟩ := uniqueLoop_spec ex p (gupStem p) (gupExt p)
      (ex.length + 1) 1 ⟨k, hk, hfree⟩
    right
    exact ⟨i, hle, by rw [heq, Option.getD_some]⟩
  · left; rw [if_neg hp]

theorem encrypt_file_success (aes : List Nat → List Nat → List Nat → List Nat)
    (env : IOEnv) (secureDir : List Char) (fs : FS) (source : List Char)
    (key nonce content : List Nat)
    (hsrc : fsRead fs source = some content)
    (hre : env.readErr = false) (hci : env.cipherErr = false)
    (hen : env.encryptErr = false) (hwr : env.writeErr = false)
    (hrm : env.removeErr = false) :
    (encrypt_file aes env secureDir fs source key nonce).2.success = true
    ∧ (encrypt_file aes env secureDir fs source key nonce).2.protected_path =
        get_unique_path (fsPaths fs)
          (secureDir ++ '/' :: ((rustFileName source).getD "unknown".data ++ ".enc".data))
    ∧ (encrypt_file aes env secureDir fs source key nonce).1 =
        fsRemove (fsWrite fs
          (get_unique_path (fsPaths fs)
            (secureDir ++ '/' :: ((rustFileName source).getD "unknown".data ++ ".enc".data)))
          (nonce ++ aes key nonce content)) source := by
  simp [encrypt_file, hsrc, hre, hci, hen, hwr, hrm]

/-! ## Claim C3 — layout of a successful encryption -/

/-- Claim C3: a successful `Encrypt` protection of a file with base name `N`
writes its artifact at `<secureDir>/N.enc`, or at a collision-suffixed
`<secureDir>/N_k.enc` with `k ≥ 1`; the artifact's content is exactly the
12-byte nonce followed by the ciphertext-with-tag and nothing else; and the
plaintext source is no longer present after the successful write. -/
theorem protect_encrypt_success (aes : List Nat → List Nat → List Nat → List Nat)
    (env : IOEnv) (secureDir : List Char) (fs : FS) (source N : List Char)
    (key nonce content : List Nat)
    (hN : rustFileName source = some N)
    (hsrc : fsRead fs source = some content)
    (hmk : env.mkdirErr = false) (hre : env.readErr = false)
    (hci : env.cipherErr = false) (hen : env.encryptErr = false)
    (hwr : env.writeErr = false) (hrm : env.removeErr = false)
    (hnonce : nonce.length = 12) :
    (protect_file aes env secureDir fs source ProtectOption.Encrypt key nonce).2.success
      = true
    ∧ ((protect_file aes env secureDir fs source
          ProtectOption.Encrypt key nonce).2.protected_path
        = secureDir ++ '/' :: (N ++ ".enc".data)
      ∨ ∃ k, 1 ≤ k ∧ (protect_file aes env secureDir fs source
          ProtectOption.Encrypt key nonce).2.protected_path
        = secureDir ++ '/' :: (N ++ '_' :: natRepr k ++ ".enc".data))
    ∧ fsRead (protect_file aes env secureDir fs source
          ProtectOption.Encrypt key nonce).1
        ((protect_file aes env secureDir fs source
          ProtectOption.Encrypt key nonce).2.protected_path)
        = some (nonce ++ aes key nonce content)
    ∧ (nonce ++ aes key nonce content).take 12 = nonce
    ∧ fsRead (protect_file aes env secureDir fs source
          ProtectOption.Encrypt key nonce).1 source = none := by
  have hp : protect_file aes env secureDir fs source ProtectOption.Encrypt key nonce
      = encrypt_file aes env secureDir fs source key nonce := by
    unfold protect_file
    rw [if_neg (fun hx => by rw [hsrc] at hx; exact Option.noConfusion hx)]
    rw [hmk, if_neg Bool.false_ne_true]
  rw [hp]
  obtain ⟨h1, h2, h3⟩ := encrypt_file_success aes env secureDir fs source
    key nonce content hsrc hre hci hen hwr hrm
  rw [hN, Option.getD_some] at h2 h3
  obtain ⟨hNne, hNns⟩ := rustFileName_shape source N hN
  have hslash : '/' ∉ N ++ ".enc".data := by
    intro hm
    rcases List.mem_append.mp hm with h | h
    · exact hNns h
    · exact absurd h (by decide)
  have hne0 : N ++ ".enc".data ≠ [] := by
    intro hx
    exact hNne (List.append_eq_nil.mp hx).1
  have hnd : N ++ ".enc".data ≠ "..".data := by
    intro hx
    have hlen := congrArg List.length hx
    simp at hlen
  have hfn : rustFileName (secureDir ++ '/' :: (N ++ ".enc".data))
      = some (N ++ ".enc".data) :=
    rustFileName_concat secureDir (N ++ ".enc".data) hslash hne0 hnd
  have hstemext : rustStemExt (N ++ ".enc".data) = (N, "enc".data) :=
    rustStemExt_concat N "enc".data hNne (by decide)
  have hgstem : gupStem (secureDir ++ '/' :: (N ++ ".enc".data)) = N := by
    simp only [gupStem, hfn, hstemext]
  have hgext : gupExt (secureDir ++ '/' :: (N ++ ".enc".data)) = "enc".data := by
    simp only [gupExt, hfn, hstemext]
  have hdest_not : get_unique_path (fsPaths fs)
      (secureDir ++ '/' :: (N ++ ".enc".data)) ∉ fsPaths fs :=
    get_unique_path_not_mem _ _
  have hsrcmem := fsRead_some_mem fs source content hsrc
  have hnesrc : get_unique_path (fsPaths fs)
      (secureDir ++ '/' :: (N ++ ".enc".data)) ≠ source :=
    fun he => hdest_not (he ▸ hsrcmem)
  have hw := fsWrite_fresh fs
    (get_unique_path (fsPaths fs) (secureDir ++ '/' :: (N ++ ".enc".data)))
    (nonce ++ aes key nonce content) hdest_not
  refine ⟨h1, ?_, ?_, ?_, ?_⟩
  · rcases get_unique_path_shape (fsPaths fs)
        (secureDir ++ '/' :: (N ++ ".enc".data)) with hA | ⟨i, hi, hB⟩
    · left; rw [h2, hA]
    · right
      refine ⟨i, hi, ?_⟩
      rw [h2, hB, hgstem, hgext,
        withFileName_concat secureDir (N ++ ".enc".data) _ hslash]
      rw [mkNewName, if_neg (by decide)]
  · rw [h2, h3, hw, fsRead_fsRemove_ne _ _ _ hnesrc, fsRead_cons_self]
  · rw [← hnonce, List.take_left]
  · rw [h3, fsRead_fsRemove_self]

/-- Claim C3, witness for `protect_encrypt_success`: encrypting `/p/.env`
into quarantine `q` with an all-zero 12-byte nonce succeeds and removes the
source. -/
theorem protect_encrypt_success_witness :
    (protect_file (fun _ _ pt => pt) ⟨false, false, false, false, false, false, false⟩
      "q".data [("/p/.env".data, [1, 2])] "/p/.env".data
      ProtectOption.Encrypt [] (List.replicate 12 0)).2.success = true
    ∧ fsRead (protect_file (fun _ _ pt => pt)
        ⟨false, false, false, false, false, false, false⟩
        "q".data [("/p/.env".data, [1, 2])] "/p/.env".data
        ProtectOption.Encrypt [] (List.replicate 12 0)).1 "/p/.env".data = none :=
  ⟨(protect_encrypt_success (fun _ _ pt => pt)
      ⟨false, false, false, false, false, false, false⟩
      "q".data [("/p/.env".data, [1, 2])] "/p/.env".data ".env".data
      [] (List.replicate 12 0) [1, 2]
      (by decide) (by decide) rfl rfl rfl rfl rfl rfl (by decide)).1,
   (protect_encrypt_success (fun _ _ pt => pt)
      ⟨false, false, false, false, false, false, false⟩
      "q".data [("/p/.env".data, [1, 2])] "/p/.env".data ".env".data
      [] (List.replicate 12 0) [1, 2]
      (by decide) (by decide) rfl rfl rfl rfl rfl rfl (by decide)).2.2.2.2⟩

/-! ## Helper lemmas: the report merge -/

theorem attachFirst_some (p : List Char) (secrets : List SecretFinding)
    (results results' : List ScanResult)
    (h : attachFirst p secrets results = some results') :
    results'.length = results.length
    ∧ (∀ i : Nat, results'[i]?.map ScanResult.path = results[i]?.map ScanResult.path
        ∧ results'[i]?.map ScanResult.risk_level
          = results[i]?.map ScanResult.risk_level)
    ∧ (∃ r ∈ results, r.path = p) := by
  induction results generalizing results' with
  | nil => exact Option.noConfusion h
  | cons r rest ih =>
    simp only [attachFirst] at h
    by_cases hp : r.path = p
    · rw [if_pos hp] at h
      have h' := (Option.some.inj h).symm
      subst h'
      refine ⟨by simp, ?_, ⟨r, by simp, hp⟩⟩
      intro i
      cases i with
      | zero => exact ⟨by simp, by simp⟩
      | succ j => exact ⟨by simp, by simp⟩
    · rw [if_neg hp, Option.map_eq_some'] at h
      obtain ⟨rest', hrest', heq⟩ := h
      subst heq
      obtain ⟨hlen, hpt, hex⟩ := ih rest' hrest'
      refine ⟨by simp [hlen], ?_, ?_⟩
      · intro i
        cases i with
        | zero => exact ⟨by simp, by simp⟩
        | succ j => simpa using hpt j
      · obtain ⟨r0, hr0, hr0p⟩ := hex
        exact ⟨r0, List.mem_cons.mpr (Or.inr hr0), hr0p⟩

theorem attachFirst_none (p : List Char) (secrets : List SecretFinding)
    (results : List ScanResult) (h : attachFirst p secrets results = none) :
    ∀ r ∈ results, r.path ≠ p := by
  induction results with
  | nil => intro r hr; exact absurd hr (List.not_mem_nil r)
  | cons r rest ih =>
    simp only [attachFirst] at h
    by_cases hp : r.path = p
    · rw [if_pos hp] at h; exact Option.noConfusion h
    · rw [if_neg hp, Option.map_eq_none'] at h
      intro x hx
      rcases List.mem_cons.mp hx with h1 | h2
      · rw [h1]; exact hp
      · exact ih h x h2

theorem attachFirst_row_origin (p : List Char) (secrets : List SecretFinding)
    (results results' : List ScanResult)
    (h : attachFirst p secrets results = some results') :
    ∀ r' ∈ results', ∃ r ∈ results, r'.path = r.path
      ∧ r'.risk_level = r.risk_level := by
  induction results generalizing results' with
  | nil => exact Option.noConfusion h
  | cons r rest ih =>
    simp only [attachFirst] at h
    by_cases hp : r.path = p
    · rw [if_pos hp] at h
      have h' := (Option.some.inj h).symm
      subst h'
      intro r' hr'
      rcases List.mem_cons.mp hr' with h1 | h2
      · exact ⟨r, by simp, by rw [h1], by rw [h1]⟩
      · exact ⟨r', List.mem_cons.mpr (Or.inr h2), rfl, rfl⟩
    · rw [if_neg hp, Option.map_eq_some'] at h
      obtain ⟨rest', hrest', heq⟩ := h
      subst heq
      intro r' hr'
      rcases List.mem_cons.mp hr' with h1 | h2
      · exact ⟨r, by simp, by rw [h1], by rw [h1]⟩
      · obtain ⟨r0, hr0, hr0e⟩ := ih rest' hrest' r' h2
        exact ⟨r0, List.mem_cons.mpr (Or.inr hr0), hr0e⟩

theorem attachFirst_row_forward (p : List Char) (secrets : List SecretFinding)
    (results results' : List ScanResult)
    (h : attachFirst p secrets results = some results') :
    ∀ r ∈ results, ∃ r' ∈ results', r'.path = r.path
      ∧ r'.risk_level = r.risk_level := by
  induction results generalizing results' with
  | nil => exact Option.noConfusion h
  | cons r0 rest ih =>
    simp only [attachFirst] at h
    by_cases hp : r0.path = p
    · rw [if_pos hp] at h
      have h' := (Option.some.inj h).symm
      subst h'
      intro r hr
      rcases List.mem_cons.mp hr with h1 | h2
      · exact ⟨{ r0 with secrets := secrets }, by simp, by rw [h1], by rw [h1]⟩
      · exact ⟨r, List.mem_cons.mpr (Or.inr h2), rfl, rfl⟩
    · rw [if_neg hp, Option.map_eq_some'] at h
      obtain ⟨rest', hrest', heq⟩ := h
      subst heq
      intro r hr
      rcases List.mem_cons.mp hr with h1 | h2
      · exact ⟨r0, by simp, by rw [h1], by rw [h1]⟩
      · obtain ⟨r', hr', hre⟩ := ih rest' hrest' r h2
        exact ⟨r', List.mem_cons.mpr (Or.inr hr'), hre⟩

theorem mergeLoop_pointwise (srs : List (List Char × List SecretFinding)) :
    ∀ (results : List ScanResult) (fws ts : Nat),
      results.length ≤ (mergeLoop srs results fws ts).1.length
      ∧ (∀ i : Nat, i < results.length →
          (mergeLoop srs results fws ts).1[i]?.map ScanResult.path
            = results[i]?.map ScanResult.path
          ∧ (mergeLoop srs results fws ts).1[i]?.map ScanResult.risk_level
            = results[i]?.map ScanResult.risk_level)
      ∧ (∀ j : Nat, results.length ≤ j →
          (mergeLoop srs results fws ts).1[j]?.map ScanResult.risk_level
            = some "high".data
          ∨ (mergeLoop srs results fws ts).1[j]? = none) := by
  induction srs with
  | nil =>
    intro results fws ts
    refine ⟨le_refl _, fun i _ => ⟨rfl, rfl⟩, fun j hj => ?_⟩
    right
    exact List.getElem?_eq_none hj
  | cons e rest ih =>
    obtain ⟨p0, s0⟩ := e
    intro results fws ts
    cases hm : attachFirst p0 s0 results with
    | some results' =>
      simp only [mergeLoop, hm]
      obtain ⟨hlen, hpt, _⟩ := attachFirst_some p0 s0 results results' hm
      obtain ⟨ih1, ih2, ih3⟩ := ih results' (fws + 1) (ts + s0.length)
      refine ⟨by omega, ?_, ?_⟩
      · intro i hi
        obtain ⟨ha, hb⟩ := ih2 i (by omega)
        obtain ⟨hc, hd⟩ := hpt i
        exact ⟨ha.trans hc, hb.trans hd⟩
      · intro j hj
        exact ih3 j (by omega)
    | none =>
      simp only [mergeLoop, hm]
      obtain ⟨ih1, ih2, ih3⟩ := ih
        (results ++ [⟨p0, scanFileType p0, ['h', 'i', 'g', 'h'], s0⟩]) (fws + 1)
        (ts + s0.length)
      have hlap : (results ++
          [(⟨p0, scanFileType p0, ['h', 'i', 'g', 'h'], s0⟩ : ScanResult)]).length
          = results.length + 1 := by simp
      refine ⟨by omega, ?_, ?_⟩
      · intro i hi
        obtain ⟨ha, hb⟩ := ih2 i (by omega)
        rw [List.getElem?_append, if_pos hi] at ha hb
        exact ⟨ha, hb⟩
      · intro j hj
        by_cases hjl : j = results.length
        · subst hjl
          obtain ⟨_, hb⟩ := ih2 results.length (by omega)
          left
          rw [hb, List.getElem?_concat_length]
          rfl
        · exact ih3 j (by omega)

theorem mergeLoop_preserves_row (srs : List (List Char × List SecretFinding)) :
    ∀ (results : List ScanResult) (fws ts : Nat) (p : List Char),
      (∃ r ∈ results, r.path = p ∧ r.risk_level = "high".data) →
      ∃ r' ∈ (mergeLoop srs results fws ts).1,
        r'.path = p ∧ r'.risk_level = "high".data := by
  induction srs with
  | nil =>
    intro results fws ts p hex
    simpa [mergeLoop] using hex
  | cons e rest ih =>
    obtain ⟨p0, s0⟩ := e
    intro results fws ts p hex
    cases hm : attachFirst p0 s0 results with
    | some results' =>
      simp only [mergeLoop, hm]
      apply ih
      obtain ⟨r, hr, hrp, hrl⟩ := hex
      obtain ⟨r', hr', hp', hl'⟩ := attachFirst_row_forward p0 s0 results results' hm r hr
      exact ⟨r', hr', hp'.trans hrp, hl'.trans hrl⟩
    | none =>
      simp only [mergeLoop, hm]
      apply ih
      obtain ⟨r, hr, hrp, hrl⟩ := hex
      exact ⟨r, List.mem_append.mpr (Or.inl hr), hrp, hrl⟩

theorem mergeLoop_adds_high (srs : List (List Char × List SecretFinding)) :
    ∀ (results : List ScanResult) (fws ts : Nat) (p : List Char)
      (secrets : List SecretFinding),
      (p, secrets) ∈ srs →
      (∀ r ∈ results, r.path ≠ p) →
      ∃ r' ∈ (mergeLoop srs results fws ts).1,
        r'.path = p ∧ r'.risk_level = "high".data := by
  induction srs with
  | nil =>
    intro _ _ _ _ _ hmem _
    exact absurd hmem (List.not_mem_nil _)
  | cons e rest ih =>
    obtain ⟨p0, s0⟩ := e
    intro results fws ts p secrets hmem hno
    cases hm : attachFirst p0 s0 results with
    | some results' =>
      simp only [mergeLoop, hm]
      rcases List.mem_cons.mp hmem with h1 | h2
      · obtain ⟨_, _, r, hr, hrp⟩ := attachFirst_some p0 s0 results results' hm
        have hpp : p = p0 := (Prod.ext_iff.mp h1).1
        exact absurd (hrp.trans hpp.symm) (hno r hr)
      · apply ih results' _ _ p secrets h2
        intro r' hr'
        obtain ⟨r, hr, hp', _⟩ := attachFirst_row_origin p0 s0 results results' hm r' hr'
        rw [hp']
        exact hno r hr
    | none =>
      simp only [mergeLoop, hm]
      by_cases hpp : p = p0
      · apply mergeLoop_preserves_row
        exact ⟨⟨p0, scanFileType p0, "high".data, s0⟩,
          List.mem_append.mpr (Or.inr (by simp)), hpp.symm, rfl⟩
      · rcases List.mem_cons.mp hmem with h1 | h2
        · exact absurd (Prod.ext_iff.mp h1).1 hpp
        · apply ih _ _ _ p secrets h2
          intro r' hr'
          rcases List.mem_append.mp hr' with ha | hb
          · exact hno r' ha
          · have hrb : r' = ⟨p0, scanFileType p0, "high".data, s0⟩ := by
              simpa using hb
            rw [hrb]
            exact fun hx => hpp hx.symm

/-! ## Claim C7 — merging never lowers a risk level -/

/-- Claim C7: the merge step of `scan_directory` never lowers a risk level:
each originally classified row keeps its path and its risk level (only its
`secrets` can change), every row the merge appends carries risk level
`"high"`, and every detector path without a classification row ends up in
the merged report as a `"high"`-risk row. -/
theorem merge_never_lowers_risk (srs : List (List Char × List SecretFinding))
    (results : List ScanResult) (fws ts : Nat) :
    (∀ i : Nat, i < results.length →
      (mergeLoop srs results fws ts).1[i]?.map ScanResult.path
        = results[i]?.map ScanResult.path
      ∧ (mergeLoop srs results fws ts).1[i]?.map ScanResult.risk_level
        = results[i]?.map ScanResult.risk_level)
    ∧ (∀ j : Nat, results.length ≤ j →
        (mergeLoop srs results fws ts).1[j]?.map ScanResult.risk_level
          = some "high".data
        ∨ (mergeLoop srs results fws ts).1[j]? = none)
    ∧ (∀ p secrets, (p, secrets) ∈ srs → (∀ r ∈ results, r.path ≠ p) →
        ∃ r' ∈ (mergeLoop srs results fws ts).1,
          r'.path = p ∧ r'.risk_level = "high".data) := by
  obtain ⟨_, h2, h3⟩ := mergeLoop_pointwise srs results fws ts
  exact ⟨h2, h3, fun p secrets hmem hno =>
    mergeLoop_adds_high srs results fws ts p secrets hmem hno⟩

/-- Claim C7, witness for `merge_never_lowers_risk`: merging a finding for
the unclassified path `b.txt` into a one-row report adds a `"high"`-risk row
for it. -/
theorem merge_never_lowers_risk_witness :
    ∃ r' ∈ (mergeLoop [("b.txt".data, [])]
        [⟨"a.json".data, ".json".data, "medium".data, []⟩] 0 0).1,
      r'.path = "b.txt".data ∧ r'.risk_level = "high".data :=
  (merge_never_lowers_risk [("b.txt".data, [])]
      [⟨"a.json".data, ".json".data, "medium".data, []⟩] 0 0).2.2
    "b.txt".data [] (by decide) (by decide)
